import Mathlib

/-!
Verification development for the goal-tracker repository.

The Python sources (`goal.py`, `goal_tracker.py`) are embedded shallowly:

* `Goal` mirrors the Python `Goal` class: `title`, the `_done` attribute
  (`bool | 'auto'`, here `Doneness`), the cached `_auto_done_result`, and the
  ordered `children` list.
* Python mutates the tree in place through parent back-references; here every
  mutating operation is a pure function from the root forest (or a subtree) to
  the updated forest.  The `_resolve_auto_done` cascade (recompute the cache at
  the mutated node, then at each ancestor up to the root) is realised by
  applying the local recomputation step `Goal.resolve_auto_done` at each node
  of the mutated spine on the way out of the recursion; since the local step
  only reads the immediate children's `done` values, the final state coincides
  with the imperative bottom-up cascade.
* Exceptions (`ValueError`) become `Except String`; the driver-level crashes
  become `Option` (with `none` for an uncaught exception).
-/

namespace GoalTracker

/-- The `_done` attribute of a goal: an explicit boolean, or the string
`'auto'` marking derived completion. -/
inductive Doneness where
| explicit (b : Bool)
| auto
deriving DecidableEq

/-- The `Goal` class of `goal.py`: `title`, `_done`, the cached
`_auto_done_result`, and the ordered `children`. -/
inductive Goal where
| mk (title : String) (doneF : Doneness) (autoDoneResult : Bool) (children : List Goal)

instance : Inhabited Goal := ⟨Goal.mk "" (.explicit false) false []⟩

def Goal.title : Goal → String
| .mk t _ _ _ => t

def Goal.doneF : Goal → Doneness
| .mk _ d _ _ => d

def Goal.autoDoneResult : Goal → Bool
| .mk _ _ a _ => a

def Goal.children : Goal → List Goal
| .mk _ _ _ c => c

/-- The `done` property getter: the explicit boolean, or the cached
`_auto_done_result` when `_done == 'auto'`. -/
def Goal.done (g : Goal) : Bool :=
match g.doneF with
| .explicit b => b
| .auto => g.autoDoneResult

/-- The `auto` property: true when `_done == 'auto'`. -/
def Goal.auto (g : Goal) : Bool := g.doneF = Doneness.auto

/-- The local step of `Goal._resolve_auto_done`: when `_done == 'auto'`,
recompute `_auto_done_result` as the conjunction of the children's `done`
values.  The upward cascade to the parent is realised by applying this step at
every ancestor on the way out of each recursive update. -/
def Goal.resolve_auto_done (g : Goal) : Goal :=
match g with
| .mk t d a cs =>
  .mk t d (match d with | .auto => cs.all Goal.done | .explicit _ => a) cs

mutual

/-- The specification-level derived attribute `effectiveDone`: the explicit
boolean when explicit, otherwise the conjunction of all children's
`effectiveDone` values (vacuously true for zero children). -/
def Goal.effectiveDone : Goal → Bool
| .mk _ d _ cs =>
  match d with
  | .explicit b => b
  | .auto => allEffectiveDone cs

/-- Conjunction of `effectiveDone` over a list of goals. -/
def allEffectiveDone : List Goal → Bool
| [] => true
| g :: gs => g.effectiveDone && allEffectiveDone gs

end

mutual

/-- Well-formedness of the cached `_auto_done_result`: at every node in
`'auto'` mode the cache equals the derived `effectiveDone` of its children. -/
def Goal.WF : Goal → Bool
| .mk _ d a cs =>
  allWF cs && (match d with | .auto => a == allEffectiveDone cs | .explicit _ => true)

/-- Conjunction of `Goal.WF` over a list of goals. -/
def allWF : List Goal → Bool
| [] => true
| g :: gs => g.WF && allWF gs

end

/-- Strong induction over goals: to prove a property at a node, it suffices to
prove it from its truth at every child. -/
theorem Goal.strongInd {motive : Goal → Prop}
    (h : ∀ t d a cs, (∀ c ∈ cs, motive c) → motive (Goal.mk t d a cs)) :
    ∀ g, motive g
| .mk t d a cs => h t d a cs (fun c hc => Goal.strongInd h c)
termination_by g => sizeOf g
decreasing_by
  have := List.sizeOf_lt_of_mem hc
  simp only [Goal.mk.sizeOf_spec]
  omega

theorem allWF_iff (l : List Goal) : allWF l = true ↔ ∀ g ∈ l, g.WF = true := by
  induction l with
  | nil => simp [allWF]
  | cons g gs ih =>
    simp [allWF, ih]

theorem allEffectiveDone_eq_all (l : List Goal) :
    allEffectiveDone l = l.all Goal.effectiveDone := by
  induction l with
  | nil => rfl
  | cons g gs ih => simp [allEffectiveDone, ih, List.all_cons]

theorem WF_mk {t d a cs} :
    (Goal.mk t d a cs).WF = true ↔
      allWF cs = true ∧ (d = .auto → a = allEffectiveDone cs) := by
  cases d with
  | explicit b => simp [Goal.WF]
  | auto => simp [Goal.WF]

/-- Under well-formedness the `done` getter agrees with the derived
`effectiveDone`. -/
theorem done_eq_effectiveDone {g : Goal} (h : g.WF = true) :
    g.done = g.effectiveDone := by
  cases g with
  | mk t d a cs =>
    cases d with
    | explicit b => rfl
    | auto =>
      have := (WF_mk.mp h).2 rfl
      simp [Goal.done, Goal.doneF, Goal.autoDoneResult, Goal.effectiveDone, this]

theorem all_done_eq_allEffectiveDone {cs : List Goal} (h : allWF cs = true) :
    cs.all Goal.done = allEffectiveDone cs := by
  induction cs with
  | nil => rfl
  | cons g gs ih =>
    simp only [allWF, Bool.and_eq_true] at h
    simp [List.all_cons, allEffectiveDone, done_eq_effectiveDone h.1, ih h.2]

/-- Repair lemma: if all children are well-formed, applying the local
`_resolve_auto_done` step makes the node well-formed. -/
theorem resolve_WF {t d a cs} (h : allWF cs = true) :
    ((Goal.mk t d a cs).resolve_auto_done).WF = true := by
  cases d with
  | explicit b =>
    simp [Goal.resolve_auto_done, WF_mk, h]
  | auto =>
    simp [Goal.resolve_auto_done, WF_mk, h, all_done_eq_allEffectiveDone h]

theorem resolve_children (g : Goal) :
    g.resolve_auto_done.children = g.children := by
  cases g; rfl

theorem resolve_title (g : Goal) : g.resolve_auto_done.title = g.title := by
  cases g; rfl

theorem resolve_doneF (g : Goal) : g.resolve_auto_done.doneF = g.doneF := by
  cases g; rfl

/-- General form of the repair lemma, for a goal given opaquely. -/
theorem resolve_WF_any {g : Goal} (h : allWF g.children = true) :
    g.resolve_auto_done.WF = true := by
  cases g with
  | mk t d a cs => exact resolve_WF h

/-- The assignment part of the `done` setter: replace the `_done` attribute,
everything else untouched (the setter then runs `_resolve_auto_done`). -/
def Goal.withDone (g : Goal) (v : Doneness) : Goal :=
match g with
| .mk t _ a cs => .mk t v a cs

theorem withDone_children (g : Goal) (v : Doneness) :
    (g.withDone v).children = g.children := by
  cases g; rfl

theorem withDone_title (g : Goal) (v : Doneness) :
    (g.withDone v).title = g.title := by
  cases g; rfl

/-! ## The path resolver of `goal_tracker.py` -/

/-- Decimal value of a digit list, `none` when empty or containing a
non-digit character. -/
def digitsVal : List Char → Option Nat
| [] => none
| [c] => if c.isDigit then some (c.toNat - '0'.toNat) else none
| c :: cs =>
  if c.isDigit then
    (digitsVal cs).map (fun n => (c.toNat - '0'.toNat) * 10 ^ cs.length + n)
  else none

/-- The result of Python's `int(s)` on a decimal integer literal with an
optional minus sign (`none` when `int` raises `ValueError`). -/
def parseInt : String → Option Int
| s =>
  match s.data with
  | '-' :: rest => (digitsVal rest).map (fun n => -(n : Int))
  | l => (digitsVal l).map (fun n => (n : Int))

/-- Function `string_is_int` of `goal_tracker.py`: true when `int(title)` succeeds. -/
def string_is_int (s : String) : Bool := (parseInt s).isSome

/-- The value `int(s)` for a string accepted by `string_is_int`. -/
def toIntVal (s : String) : Int := (parseInt s).getD 0

/-- Python's `specifier.split('.')`: the (always nonempty) list of segments
between the dots.  `acc` holds the readers of the current segment reversed. -/
def splitSegsAux : List Char → List Char → List String
| [], acc => [String.mk acc.reverse]
| c :: cs, acc =>
  if c = '.' then String.mk acc.reverse :: splitSegsAux cs []
  else splitSegsAux cs (c :: acc)

/-- Split of a whole specifier string on dots. -/
def splitSegs (s : String) : List String := splitSegsAux s.data []

/-- Index of the first child whose title matches, i.e. the position of
`search_result[0]` for `[x for x in search_list if x.title == lookup_title]`. -/
def findTitleIdx (l : List Goal) (t : String) : Option Nat :=
  l.findIdx? (fun g => g.title == t)

/-- The loop of `create_from_specifier` below the root level: `g` is
`curr_parent` (never `None` here) and `g.children` is `search_list`; the
remaining specifier segments are processed one per level.  The returned goal
is the updated `curr_parent` subtree — kept even when an error is raised,
because the Python tree keeps all mutations made before the raise. -/
def create_go (spec : String) : List String → Goal → Goal × Except String Bool
| [], g => (g, .ok false)
| seg :: rest, g =>
  if string_is_int seg then
    if rest.isEmpty then
      (g, .error ("Last element in specifier cannot be an index: " ++ spec))
    else
      let i := toIntVal seg
      if 0 ≤ i ∧ i.toNat < g.children.length then
        let p := create_go spec rest (g.children.getD i.toNat default)
        (Goal.resolve_auto_done
          (Goal.mk g.title .auto g.autoDoneResult (g.children.set i.toNat p.1)), p.2)
      else (g, .error ("Index not in range: " ++ toString i))
  else
    match findTitleIdx g.children seg with
    | some j =>
      let p := create_go spec rest (g.children.getD j default)
      (Goal.resolve_auto_done
        (Goal.mk g.title .auto g.autoDoneResult (g.children.set j p.1)), p.2)
    | none =>
      let p := create_go spec rest (Goal.mk seg (.explicit false) false [])
      (Goal.resolve_auto_done
        (Goal.mk g.title .auto g.autoDoneResult (g.children ++ [p.1])),
       match p.2 with | .ok _ => .ok true | .error e => .error e)

/-- The first iteration of `create_from_specifier`, where `search_list` is the
root list and `curr_parent` is `None` (so no goal is forced to auto and the
root list, a plain Python `list`, triggers no recomputation). -/
def create_segs (f : List Goal) (segs : List String) (spec : String) :
    List Goal × Except String Bool :=
  match segs with
  | [] => (f, .ok false)
  | seg :: rest =>
    if string_is_int seg then
      if rest.isEmpty then
        (f, .error ("Last element in specifier cannot be an index: " ++ spec))
      else
        let i := toIntVal seg
        if 0 ≤ i ∧ i.toNat < f.length then
          let p := create_go spec rest (f.getD i.toNat default)
          (f.set i.toNat p.1, p.2)
        else (f, .error ("Index not in range: " ++ toString i))
    else
      match findTitleIdx f seg with
      | some j =>
        let p := create_go spec rest (f.getD j default)
        (f.set j p.1, p.2)
      | none =>
        let p := create_go spec rest (Goal.mk seg (.explicit false) false [])
        (f ++ [p.1], match p.2 with | .ok _ => .ok true | .error e => .error e)

/-- Function `create_from_specifier` of `goal_tracker.py`: split the specifier on `.`
and walk it, creating missing title segments; returns the updated root list
and `True` iff something was added, or the raised `ValueError` message. -/
def create_from_specifier (f : List Goal) (spec : String) :
    List Goal × Except String Bool :=
  create_segs f (splitSegs spec) spec

/-- The loop of `find_from_specifier`: `result` carries the goal found so far
(`None` initially). -/
def find_go : List Goal → Option Goal → List String → Except String (Option Goal)
| _, res, [] => .ok res
| l, _, seg :: rest =>
  if string_is_int seg then
    let i := toIntVal seg
    if 0 ≤ i ∧ i.toNat < l.length then
      let c := l.getD i.toNat default
      find_go c.children (some c) rest
    else .error ("Index not in range: " ++ toString i)
  else
    match findTitleIdx l seg with
    | none => .ok none
    | some j =>
      let c := l.getD j default
      find_go c.children (some c) rest

/-- Function `find_from_specifier` of `goal_tracker.py`: returns the specified goal, or
`None` (title miss), or the raised `ValueError` message (index out of range). -/
def find_from_specifier (f : List Goal) (spec : String) :
    Except String (Option Goal) :=
  find_go f none (splitSegs spec)

/-- The loop of `delete_from_specifier` below the root level: `g.children` is
`search_list` and `g` is its owning goal (the `parent` back-reference of every
element of `search_list`).  On removal the owner recomputes (the `_ChildList`
hook), and when its child list became empty its `_done` is set to `False` (the
setter triggering one more recomputation). -/
def delete_go : List String → Goal → Except String (Goal × Bool)
| [], g => .ok (g, false)
| seg :: rest, g =>
  if rest.isEmpty then
    if string_is_int seg then
      let i := toIntVal seg
      if 0 ≤ i ∧ i.toNat < g.children.length then
        let removed := g.children.eraseIdx i.toNat
        let g1 := Goal.resolve_auto_done
          (Goal.mk g.title g.doneF g.autoDoneResult removed)
        if removed.isEmpty then
          .ok (Goal.resolve_auto_done (g1.withDone (.explicit false)), true)
        else .ok (g1, true)
      else .error ("Index not in range: " ++ toString i)
    else
      match findTitleIdx g.children seg with
      | none => .ok (g, false)
      | some j =>
        let removed := g.children.eraseIdx j
        let g1 := Goal.resolve_auto_done
          (Goal.mk g.title g.doneF g.autoDoneResult removed)
        if removed.isEmpty then
          .ok (Goal.resolve_auto_done (g1.withDone (.explicit false)), true)
        else .ok (g1, true)
  else
    if string_is_int seg then
      let i := toIntVal seg
      if 0 ≤ i ∧ i.toNat < g.children.length then
        match delete_go rest (g.children.getD i.toNat default) with
        | .error e => .error e
        | .ok (c, res) =>
          let g' := Goal.mk g.title g.doneF g.autoDoneResult (g.children.set i.toNat c)
          .ok (if res then Goal.resolve_auto_done g' else g', res)
      else .error ("Index not in range: " ++ toString i)
    else
      match findTitleIdx g.children seg with
      | none => .ok (g, false)
      | some j =>
        match delete_go rest (g.children.getD j default) with
        | .error e => .error e
        | .ok (c, res) =>
          let g' := Goal.mk g.title g.doneF g.autoDoneResult (g.children.set j c)
          .ok (if res then Goal.resolve_auto_done g' else g', res)

/-- The first iteration of `delete_from_specifier`: the root list is a plain
Python `list` (no recomputation hook) and root goals have no parent (so the
emptied-list fix never applies at this level). -/
def delete_segs (f : List Goal) (segs : List String) :
    Except String (List Goal × Bool) :=
  match segs with
  | [] => .ok (f, false)
  | seg :: rest =>
    if rest.isEmpty then
      if string_is_int seg then
        let i := toIntVal seg
        if 0 ≤ i ∧ i.toNat < f.length then .ok (f.eraseIdx i.toNat, true)
        else .error ("Index not in range: " ++ toString i)
      else
        match findTitleIdx f seg with
        | none => .ok (f, false)
        | some j => .ok (f.eraseIdx j, true)
    else
      if string_is_int seg then
        let i := toIntVal seg
        if 0 ≤ i ∧ i.toNat < f.length then
          match delete_go rest (f.getD i.toNat default) with
          | .error e => .error e
          | .ok (c, res) => .ok (f.set i.toNat c, res)
        else .error ("Index not in range: " ++ toString i)
      else
        match findTitleIdx f seg with
        | none => .ok (f, false)
        | some j =>
          match delete_go rest (f.getD j default) with
          | .error e => .error e
          | .ok (c, res) => .ok (f.set j c, res)

/-- Function `delete_from_specifier` of `goal_tracker.py`. -/
def delete_from_specifier (f : List Goal) (spec : String) :
    Except String (List Goal × Bool) :=
  delete_segs f (splitSegs spec)

/-! ## Serialization (`Goal.__dict__` / `Goal.from_dict`) -/

/-- The persisted plain-data form of a goal:
`{"title": ..., "done": false | true | "auto", "children": [...]}`.
`done` stores the node's own `_done` mode, never the derived value. -/
inductive GoalDict where
| mk (title : String) (doneV : Doneness) (children : List GoalDict)

instance : Inhabited GoalDict := ⟨GoalDict.mk "" (.explicit false) []⟩

def GoalDict.title : GoalDict → String
| .mk t _ _ => t

def GoalDict.doneV : GoalDict → Doneness
| .mk _ d _ => d

def GoalDict.children : GoalDict → List GoalDict
| .mk _ _ c => c

mutual

/-- Method `Goal.__dict__`: serialize title, the `_done` mode, and the children;
the cached `_auto_done_result` is not persisted. -/
def Goal.to_dict : Goal → GoalDict
| .mk t d _ cs => .mk t d (to_dict_list cs)

def to_dict_list : List Goal → List GoalDict
| [] => []
| g :: gs => g.to_dict :: to_dict_list gs

end

mutual

/-- Static method `Goal.from_dict`: build `Goal(title, done, parent)` (whose `__init__`
initialises the cache to `False` and resolves once over the still-empty child
list) and then `extend` the children, which triggers the `_ChildList` hook and
recomputes the cache from the loaded children. -/
def Goal.from_dict : GoalDict → Goal
| .mk t d cds =>
  Goal.resolve_auto_done (Goal.mk t d false (from_dict_list cds))

def from_dict_list : List GoalDict → List Goal
| [] => []
| d :: ds => Goal.from_dict d :: from_dict_list ds

end

/-! ## Derived measures on trees -/

mutual

/-- Number of goals in a subtree. -/
def Goal.size : Goal → Nat
| .mk _ _ _ cs => 1 + sizeList cs

/-- Number of goals in a forest. -/
def sizeList : List Goal → Nat
| [] => 0
| g :: gs => g.size + sizeList gs

end

mutual

/-- No goal in the subtree has a title that is syntactically an integer
literal. -/
def Goal.titlesOk : Goal → Bool
| .mk t _ _ cs => !string_is_int t && titlesOkList cs

def titlesOkList : List Goal → Bool
| [] => true
| g :: gs => g.titlesOk && titlesOkList gs

end

mutual

/-- Every node of the subtree, the root included. -/
def Goal.subgoals : Goal → List Goal
| .mk t d a cs => Goal.mk t d a cs :: subgoalsList cs

def subgoalsList : List Goal → List Goal
| [] => []
| g :: gs => g.subgoals ++ subgoalsList gs

end

mutual

/-- The derived `effectiveDone` computed on the persisted plain-data form. -/
def GoalDict.effD : GoalDict → Bool
| .mk _ d cs =>
  match d with
  | .explicit b => b
  | .auto => allEffD cs

def allEffD : List GoalDict → Bool
| [] => true
| g :: gs => g.effD && allEffD gs

end

/-! ## The `done` setter along a path

The Python driver mutates `to_mark.done` on a node found inside the tree; the
setter assigns `_done` and triggers `_resolve_auto_done`, which cascades to
every ancestor.  The node is addressed here by its path of child positions. -/

/-- Assign the `done` property of the node at path `p` inside subtree `g`
(`[]` addresses `g` itself); every node along the spine re-runs the local
`_resolve_auto_done` step, innermost first. -/
def Goal.setDoneIn : List Nat → Doneness → Goal → Goal
| [], v, g => Goal.resolve_auto_done (Goal.mk g.title v g.autoDoneResult g.children)
| i :: p, v, g =>
  Goal.resolve_auto_done
    (Goal.mk g.title g.doneF g.autoDoneResult
      (g.children.set i (Goal.setDoneIn p v (g.children.getD i default))))

/-- Assign the `done` property of the node at path `p` in the root forest
(root goals have no parent, so the cascade stops below the root list). -/
def setDoneAt (f : List Goal) : List Nat → Doneness → List Goal
| [], _ => f
| i :: p, v => f.set i (Goal.setDoneIn p v (f.getD i default))

/-! ## Resolution paths for `delete` (specification side)

`delete_resolve_go` mirrors the walk of `delete_from_specifier` but only
reports *where* the last segment resolves (as a path of child positions), with
the same index-out-of-range failures; `removeFixIn` implements, on the
persisted plain-data form, the specified effect of a successful delete:
remove the node at that path from its containing list, and when the removed
node had a parent whose child list thereby becomes empty, force that parent's
completion to explicit `false`. -/

def delete_resolve_go : List String → Goal → Except String (Option (List Nat))
| [], _ => .ok none
| seg :: rest, g =>
  if rest.isEmpty then
    if string_is_int seg then
      let i := toIntVal seg
      if 0 ≤ i ∧ i.toNat < g.children.length then .ok (some [i.toNat])
      else .error ("Index not in range: " ++ toString i)
    else
      match findTitleIdx g.children seg with
      | none => .ok none
      | some j => .ok (some [j])
  else
    if string_is_int seg then
      let i := toIntVal seg
      if 0 ≤ i ∧ i.toNat < g.children.length then
        match delete_resolve_go rest (g.children.getD i.toNat default) with
        | .error e => .error e
        | .ok o => .ok (o.map (fun p => i.toNat :: p))
      else .error ("Index not in range: " ++ toString i)
    else
      match findTitleIdx g.children seg with
      | none => .ok none
      | some j =>
        match delete_resolve_go rest (g.children.getD j default) with
        | .error e => .error e
        | .ok o => .ok (o.map (fun p => j :: p))

/-- The path (of child positions, from the root list) at which the last
segment of a delete specifier resolves, `none` when a title segment misses. -/
def delete_resolve (f : List Goal) (segs : List String) :
    Except String (Option (List Nat)) :=
  match segs with
  | [] => .ok none
  | seg :: rest =>
    if rest.isEmpty then
      if string_is_int seg then
        let i := toIntVal seg
        if 0 ≤ i ∧ i.toNat < f.length then .ok (some [i.toNat])
        else .error ("Index not in range: " ++ toString i)
      else
        match findTitleIdx f seg with
        | none => .ok none
        | some j => .ok (some [j])
    else
      if string_is_int seg then
        let i := toIntVal seg
        if 0 ≤ i ∧ i.toNat < f.length then
          match delete_resolve_go rest (f.getD i.toNat default) with
          | .error e => .error e
          | .ok o => .ok (o.map (fun p => i.toNat :: p))
        else .error ("Index not in range: " ++ toString i)
      else
        match findTitleIdx f seg with
        | none => .ok none
        | some j =>
          match delete_resolve_go rest (f.getD j default) with
          | .error e => .error e
          | .ok o => .ok (o.map (fun p => j :: p))

/-- Specified effect of deleting the node at path `p` inside a subtree, on the
plain-data form: erase it from its containing child list, and if that list
thereby becomes empty, force the owning node's completion to explicit
`false`. -/
def removeFixIn : List Nat → GoalDict → GoalDict
| [], g => g
| i :: p, .mk t d cs =>
  if p.isEmpty then
    let cs' := cs.eraseIdx i
    .mk t (if cs'.isEmpty then .explicit false else d) cs'
  else .mk t d (cs.set i (removeFixIn p (cs.getD i default)))

/-- Specified effect of deleting the node at path `p` from the root forest;
a root goal has no parent, so no completion is forced at the top level. -/
def removeFixAt (f : List GoalDict) : List Nat → List GoalDict
| [] => f
| i :: p =>
  if p.isEmpty then f.eraseIdx i
  else f.set i (removeFixIn p (f.getD i default))

/-! ## The `Goal._ChildList` mutation hooks

Each Python mutator of the child list, as an operation on the owning goal
(`_ChildList.parent`).  The hooked ones run `_resolve_auto_done` after the
underlying `list` operation; the upward cascade is the owner's business and is
outside these single-owner models. -/

/-- Hooked `_ChildList.append`: recomputes after adding. -/
def childAppend (g : Goal) (x : Goal) : Goal :=
  Goal.resolve_auto_done (Goal.mk g.title g.doneF g.autoDoneResult (g.children ++ [x]))

/-- Hooked `_ChildList.insert`.  (Indices beyond the current length are not
used by this development.) -/
def childInsert (g : Goal) (i : Nat) (x : Goal) : Goal :=
  Goal.resolve_auto_done
    (Goal.mk g.title g.doneF g.autoDoneResult (g.children.insertIdx i x))

/-- Hooked `_ChildList.remove`.  Python's `list.remove` drops the first
element `==` to the argument (object identity for goals); `i` is that
element's position. -/
def childRemove (g : Goal) (i : Nat) : Goal :=
  Goal.resolve_auto_done
    (Goal.mk g.title g.doneF g.autoDoneResult (g.children.eraseIdx i))

/-- Hooked `_ChildList.pop`; `i` is the popped position. -/
def childPop (g : Goal) (i : Nat) : Goal :=
  Goal.resolve_auto_done
    (Goal.mk g.title g.doneF g.autoDoneResult (g.children.eraseIdx i))

/-- Hooked `_ChildList.__delitem__` (`del lst[i]`). -/
def childDelItem (g : Goal) (i : Nat) : Goal :=
  Goal.resolve_auto_done
    (Goal.mk g.title g.doneF g.autoDoneResult (g.children.eraseIdx i))

/-- Hooked `_ChildList.clear`. -/
def childClear (g : Goal) : Goal :=
  Goal.resolve_auto_done (Goal.mk g.title g.doneF g.autoDoneResult [])

/-- Hooked `_ChildList.extend`. -/
def childExtend (g : Goal) (xs : List Goal) : Goal :=
  Goal.resolve_auto_done (Goal.mk g.title g.doneF g.autoDoneResult (g.children ++ xs))

/-- Item replacement `lst[i] = x`: `_ChildList` does **not** override
`__setitem__`, so the inherited `list.__setitem__` runs and no recomputation
is triggered. -/
def childSetItem (g : Goal) (i : Nat) (x : Goal) : Goal :=
  Goal.mk g.title g.doneF g.autoDoneResult (g.children.set i x)

/-- In-place concatenation `lst += xs`: `_ChildList.__iadd__` calls
`list.__add__` (which builds a fresh list and whose result is discarded), then
recomputes, and returns `None` — so no element is ever added to the child
list (and in Python the `children` attribute is then rebound to `None`).
Modelled as: children unchanged, recomputation run. -/
def childIAdd (g : Goal) (xs : List Goal) : Goal :=
  Goal.resolve_auto_done (Goal.mk g.title g.doneF g.autoDoneResult g.children)

/-! ## Pretty printing and the driver flows of `main` -/

mutual

/-- Method `Goal.pretty_str(spaces, space_inc)`: the indented subtree listing with an
`" (X)"` suffix when the `done` getter is true and an `" (auto)"` suffix when
the node is in auto mode. -/
def Goal.pretty_str : Goal → Nat → Nat → String
| .mk t d a cs, spaces, space_inc =>
  String.mk (List.replicate spaces ' ') ++ t
    ++ (if (Goal.mk t d a cs).done then " (X)" else "")
    ++ (if d = .auto then " (auto)" else "")
    ++ "\n"
    ++ prettyList cs (spaces + space_inc) space_inc

def prettyList : List Goal → Nat → Nat → String
| [], _, _ => ""
| g :: gs, spaces, space_inc =>
  Goal.pretty_str g spaces space_inc ++ prettyList gs spaces space_inc

end

/-- The `--complete` branch of `main`:
`to_mark = find_from_specifier(...); if to_mark.auto: print(...) else:
to_mark.done = True`.  Result `some msg?` means the run continues (with the
refusal message, if any, printed); `none` means the run dies with an uncaught
exception — either the `ValueError` from an index segment (not caught here)
or the `AttributeError` from reading `.auto` on `None` — so neither the later
operations nor the final file write happen.  (`--incomplete` is identical up
to the assigned value and message.) -/
def completeFlow (f : List Goal) (spec : String) : Option (Option String) :=
  match find_from_specifier f spec with
  | .error _ => none
  | .ok none => none
  | .ok (some g) =>
    if g.auto then
      some (some "Cannot mark autocomplete goal as done; must mark all children as done")
    else some none

/-- The `--list` branch of `main`:
`for idx, goal in enumerate(goal_data): print(goal.pretty_str(idx=idx))`.
`pretty_str` has no parameter named `idx`, so the call raises `TypeError` on
the first iteration; with an empty root list the loop body never runs.
`some printed` = the lines printed by a completed loop; `none` = crash. -/
def listFlow (f : List Goal) : Option (List String) :=
  match f with
  | [] => some []
  | _ :: _ => none

/-- The `--new` branch of `main`: run `create_from_specifier`, print the
raised `ValueError` message or the "already exists" notice if nothing was
created, and in every case serialize the (possibly partially mutated) root
list back to the file.  Returns the written document and the printed
message. -/
def newFlow (f : List Goal) (spec : String) : List GoalDict × Option String :=
  let p := create_from_specifier f spec
  match p.2 with
  | .ok b => (to_dict_list p.1, if b then none else some (spec ++ " already exists"))
  | .error e => (to_dict_list p.1, some e)

/-! ## List-level lemmas about well-formedness -/

theorem allWF_eq_all (l : List Goal) : allWF l = l.all Goal.WF := by
  induction l with
  | nil => rfl
  | cons g gs ih => simp [allWF, ih, List.all_cons]

theorem titlesOkList_eq_all (l : List Goal) :
    titlesOkList l = l.all Goal.titlesOk := by
  induction l with
  | nil => rfl
  | cons g gs ih => simp [titlesOkList, ih, List.all_cons]

theorem default_WF : (default : Goal).WF = true := rfl

theorem allWF_set {cs : List Goal} (h : allWF cs = true) {c' : Goal}
    (hc : c'.WF = true) (i : Nat) : allWF (cs.set i c') = true := by
  rw [allWF_iff] at h ⊢
  intro g hg
  rcases List.mem_or_eq_of_mem_set hg with hmem | rfl
  · exact h g hmem
  · exact hc

theorem allWF_append {cs ds : List Goal} (h : allWF cs = true)
    (h' : allWF ds = true) : allWF (cs ++ ds) = true := by
  rw [allWF_iff] at h h' ⊢
  intro g hg
  rcases List.mem_append.mp hg with hmem | hmem
  · exact h g hmem
  · exact h' g hmem

theorem allWF_eraseIdx {cs : List Goal} (h : allWF cs = true) (i : Nat) :
    allWF (cs.eraseIdx i) = true := by
  rw [allWF_iff] at h ⊢
  intro g hg
  exact h g ((List.eraseIdx_sublist cs i).mem hg)

theorem WF_getD {cs : List Goal} (h : allWF cs = true) (i : Nat) :
    (cs.getD i default).WF = true := by
  by_cases hi : i < cs.length
  · rw [List.getD_eq_getElem _ _ hi]
    exact (allWF_iff cs).mp h _ (List.getElem_mem hi)
  · rw [List.getD_eq_default _ _ (Nat.le_of_not_lt hi)]
    exact default_WF

theorem set_getD_self {cs : List Goal} {i : Nat} (hi : i < cs.length) :
    cs.set i (cs.getD i default) = cs := by
  rw [List.getD_eq_getElem _ _ hi]
  apply List.ext_getElem
  · simp
  · intro n h1 h2
    simp only [List.getElem_set]
    split
    · subst_vars; rfl
    · rfl

/-! ## Preservation of well-formedness by the public operations -/

theorem setDoneIn_WF : ∀ (p : List Nat) (v : Doneness) (g : Goal),
    g.WF = true → (Goal.setDoneIn p v g).WF = true := by
  intro p
  induction p with
  | nil =>
    intro v g h
    cases g with
    | mk t d a cs =>
      exact resolve_WF (WF_mk.mp h).1
  | cons i rest ih =>
    intro v g h
    cases g with
    | mk t d a cs =>
      have hcs := (WF_mk.mp h).1
      have hchild := ih v _ (WF_getD hcs i)
      exact resolve_WF (allWF_set hcs hchild i)

theorem setDoneAt_WF (f : List Goal) (p : List Nat) (v : Doneness)
    (h : allWF f = true) : allWF (setDoneAt f p v) = true := by
  cases p with
  | nil => exact h
  | cons i rest =>
    exact allWF_set h (setDoneIn_WF rest v _ (WF_getD h i)) i

theorem create_go_WF (spec : String) :
    ∀ (segs : List String) (g : Goal), g.WF = true →
      ((create_go spec segs g).1).WF = true := by
  intro segs
  induction segs with
  | nil => intro g h; exact h
  | cons seg rest ih =>
    intro g h
    cases g with
    | mk t d a cs =>
      have hcs : allWF cs = true := (WF_mk.mp h).1
      simp only [create_go, Goal.children, Goal.title, Goal.autoDoneResult]
      split
      · split
        · exact h
        · split
          · exact resolve_WF (a := a) (allWF_set hcs (ih _ (WF_getD hcs _)) _)
          · exact h
      · split
        · exact resolve_WF (a := a) (allWF_set hcs (ih _ (WF_getD hcs _)) _)
        · refine resolve_WF (a := a) (allWF_append hcs ?_)
          simp only [allWF, Bool.and_eq_true]
          exact ⟨ih _ rfl, trivial⟩

theorem Goal.eta (g : Goal) :
    Goal.mk g.title g.doneF g.autoDoneResult g.children = g := by
  cases g; rfl

theorem findTitleIdx_lt_length {l : List Goal} {t : String} {j : Nat}
    (h : findTitleIdx l t = some j) : j < l.length :=
  (List.findIdx?_eq_some_iff_findIdx_eq.mp h).1

theorem create_segs_WF (f : List Goal) (segs : List String) (spec : String)
    (h : allWF f = true) : allWF (create_segs f segs spec).1 = true := by
  cases segs with
  | nil => exact h
  | cons seg rest =>
    simp only [create_segs]
    split
    · split
      · exact h
      · split
        · exact allWF_set h (create_go_WF spec rest _ (WF_getD h _)) _
        · exact h
    · split
      · exact allWF_set h (create_go_WF spec rest _ (WF_getD h _)) _
      · refine allWF_append h ?_
        simp only [allWF, Bool.and_eq_true]
        exact ⟨create_go_WF spec rest _ rfl, trivial⟩

theorem create_from_specifier_WF (f : List Goal) (spec : String)
    (h : allWF f = true) : allWF (create_from_specifier f spec).1 = true :=
  create_segs_WF f _ spec h

theorem set_getD_self2 {cs : List Goal} {i : Nat} (hi : i < cs.length) :
    cs.set i ((cs[i]?).getD default) = cs := by
  rw [← List.getD_eq_getElem?_getD]
  exact set_getD_self hi

theorem delete_go_unchanged : ∀ (segs : List String) (g g' : Goal),
    delete_go segs g = .ok (g', false) → g' = g := by
  intro segs
  induction segs with
  | nil =>
    intro g g' h
    simp only [delete_go, Except.ok.injEq, Prod.mk.injEq] at h
    exact h.1.symm
  | cons seg rest ih =>
    intro g g' h
    simp only [delete_go] at h
    split at h
    · -- rest is empty: the last segment
      split at h
      · -- integer segment
        split at h
        · -- in range: the result flag is true, contradiction
          split at h <;> simp at h
        · -- out of range: a ValueError, contradiction
          simp at h
      · -- title segment
        split at h
        · -- no match: unchanged
          simp only [Except.ok.injEq, Prod.mk.injEq] at h
          exact h.1.symm
        · -- match: removal, flag true, contradiction
          split at h <;> simp at h
    · -- descend
      split at h
      · -- integer segment
        split at h
        · -- in range: recurse
          next hrange =>
          split at h
          · simp at h
          · next c res heq =>
            simp only [Except.ok.injEq, Prod.mk.injEq] at h
            obtain ⟨h1, h2⟩ := h
            subst h2
            simp only [Bool.false_eq_true, if_false] at h1
            have hc := ih _ _ heq
            subst hc
            rw [set_getD_self hrange.2] at h1
            rw [Goal.eta] at h1
            exact h1.symm
        · simp at h
      · -- title segment
        split at h
        · simp only [Except.ok.injEq, Prod.mk.injEq] at h
          exact h.1.symm
        · next j hfind =>
          split at h
          · simp at h
          · next c res heq =>
            simp only [Except.ok.injEq, Prod.mk.injEq] at h
            obtain ⟨h1, h2⟩ := h
            subst h2
            simp only [Bool.false_eq_true, if_false] at h1
            have hc := ih _ _ heq
            subst hc
            rw [set_getD_self (findTitleIdx_lt_length hfind)] at h1
            rw [Goal.eta] at h1
            exact h1.symm

theorem delete_go_WF : ∀ (segs : List String) (g : Goal), g.WF = true →
    ∀ (g' : Goal) (b : Bool), delete_go segs g = .ok (g', b) → g'.WF = true := by
  intro segs
  induction segs with
  | nil =>
    intro g h g' b heq
    simp only [delete_go, Except.ok.injEq, Prod.mk.injEq] at heq
    exact heq.1 ▸ h
  | cons seg rest ih =>
    intro g h g' b heq
    cases g with
    | mk t d a cs =>
      have hcs : allWF cs = true := (WF_mk.mp h).1
      simp only [delete_go, Goal.children, Goal.title, Goal.doneF, Goal.autoDoneResult,
        resolve_title, resolve_doneF, resolve_children] at heq
      split at heq
      · -- last segment
        split at heq
        · -- integer segment
          split at heq
          · -- in range: removal
            split at heq <;>
              (simp only [Except.ok.injEq, Prod.mk.injEq] at heq;
               refine heq.1 ▸ resolve_WF_any ?_;
               simp only [withDone_children, resolve_children, Goal.children];
               exact allWF_eraseIdx hcs _)
          · simp at heq
        · -- title segment
          split at heq
          · -- no match: unchanged
            simp only [Except.ok.injEq, Prod.mk.injEq] at heq
            exact heq.1 ▸ h
          · -- match: removal
            split at heq <;>
              (simp only [Except.ok.injEq, Prod.mk.injEq] at heq;
               refine heq.1 ▸ resolve_WF_any ?_;
               simp only [withDone_children, resolve_children, Goal.children];
               exact allWF_eraseIdx hcs _)
      · -- descend
        split at heq
        · -- integer segment
          split at heq
          · -- in range
            next hrange =>
            split at heq
            · simp at heq
            · next c res heq2 =>
              simp only [Except.ok.injEq, Prod.mk.injEq] at heq
              obtain ⟨h1, h2⟩ := heq
              have hcWF := ih _ (WF_getD hcs _) _ _ heq2
              cases res with
              | false =>
                simp only [Bool.false_eq_true, if_false] at h1
                have hc := delete_go_unchanged _ _ _ heq2
                rw [hc] at h1
                rw [set_getD_self hrange.2] at h1
                exact h1 ▸ h
              | true =>
                simp only [if_pos rfl] at h1
                exact h1 ▸ resolve_WF (allWF_set hcs hcWF _)
          · simp at heq
        · -- title segment
          split at heq
          · simp only [Except.ok.injEq, Prod.mk.injEq] at heq
            exact heq.1 ▸ h
          · next j hfind =>
            split at heq
            · simp at heq
            · next c res heq2 =>
              simp only [Except.ok.injEq, Prod.mk.injEq] at heq
              obtain ⟨h1, h2⟩ := heq
              have hcWF := ih _ (WF_getD hcs _) _ _ heq2
              cases res with
              | false =>
                simp only [Bool.false_eq_true, if_false] at h1
                have hc := delete_go_unchanged _ _ _ heq2
                rw [hc] at h1
                rw [set_getD_self (findTitleIdx_lt_length hfind)] at h1
                exact h1 ▸ h
              | true =>
                simp only [if_pos rfl] at h1
                exact h1 ▸ resolve_WF (allWF_set hcs hcWF _)

theorem delete_segs_WF (f : List Goal) (segs : List String)
    (h : allWF f = true) (f' : List Goal) (b : Bool)
    (heq : delete_segs f segs = .ok (f', b)) : allWF f' = true := by
  cases segs with
  | nil =>
    simp only [delete_segs, Except.ok.injEq, Prod.mk.injEq] at heq
    exact heq.1 ▸ h
  | cons seg rest =>
    simp only [delete_segs] at heq
    split at heq
    · -- last segment: root-level removal
      split at heq
      · split at heq
        · simp only [Except.ok.injEq, Prod.mk.injEq] at heq
          exact heq.1 ▸ allWF_eraseIdx h _
        · simp at heq
      · split at heq
        · simp only [Except.ok.injEq, Prod.mk.injEq] at heq
          exact heq.1 ▸ h
        · simp only [Except.ok.injEq, Prod.mk.injEq] at heq
          exact heq.1 ▸ allWF_eraseIdx h _
    · -- descend
      split at heq
      · split at heq
        · split at heq
          · simp at heq
          · next c res heq2 =>
            simp only [Except.ok.injEq, Prod.mk.injEq] at heq
            exact heq.1 ▸ allWF_set h (delete_go_WF _ _ (WF_getD h _) _ _ heq2) _
        · simp at heq
      · split at heq
        · simp only [Except.ok.injEq, Prod.mk.injEq] at heq
          exact heq.1 ▸ h
        · split at heq
          · simp at heq
          · next c res heq2 =>
            simp only [Except.ok.injEq, Prod.mk.injEq] at heq
            exact heq.1 ▸ allWF_set h (delete_go_WF _ _ (WF_getD h _) _ _ heq2) _

theorem delete_from_specifier_WF (f : List Goal) (spec : String)
    (h : allWF f = true) (f' : List Goal) (b : Bool)
    (heq : delete_from_specifier f spec = .ok (f', b)) : allWF f' = true :=
  delete_segs_WF f _ h f' b heq

/-! ## Serialization lemmas -/

/-- Strong induction over the persisted plain-data form. -/
theorem GoalDict.strongInduction {motive : GoalDict → Prop}
    (h : ∀ t d cs, (∀ c ∈ cs, motive c) → motive (GoalDict.mk t d cs)) :
    ∀ g, motive g
| .mk t d cs => h t d cs (fun c hc => GoalDict.strongInduction h c)
termination_by g => sizeOf g
decreasing_by
  have := List.sizeOf_lt_of_mem hc
  simp only [GoalDict.mk.sizeOf_spec]
  omega

theorem from_dict_list_WF_of (ds : List GoalDict)
    (hm : ∀ d ∈ ds, (Goal.from_dict d).WF = true) :
    allWF (from_dict_list ds) = true := by
  induction ds with
  | nil => rfl
  | cons d ds ih =>
    simp only [from_dict_list, allWF, Bool.and_eq_true]
    exact ⟨hm d (by simp), ih (fun x hx => hm x (by simp [hx]))⟩

/-- A loaded tree is well-formed: `from_dict` recomputes every auto cache from
the loaded children. -/
theorem from_dict_WF : ∀ (d : GoalDict), (Goal.from_dict d).WF = true := by
  refine GoalDict.strongInduction ?_
  intro t d cs ih
  simp only [Goal.from_dict]
  exact resolve_WF (from_dict_list_WF_of cs ih)

theorem from_dict_list_WF (ds : List GoalDict) :
    allWF (from_dict_list ds) = true :=
  from_dict_list_WF_of ds (fun d _ => from_dict_WF d)

theorem to_dict_resolve (g : Goal) :
    (g.resolve_auto_done).to_dict = g.to_dict := by
  cases g; rfl

theorem to_dict_withDone (g : Goal) (v : Doneness) :
    (g.withDone v).to_dict = GoalDict.mk g.title v (to_dict_list g.children) := by
  cases g; rfl

theorem to_dict_list_from_dict_list_of (cs : List GoalDict)
    (hm : ∀ c ∈ cs, (Goal.from_dict c).to_dict = c) :
    to_dict_list (from_dict_list cs) = cs := by
  induction cs with
  | nil => rfl
  | cons c cs ih =>
    simp only [from_dict_list, to_dict_list]
    rw [hm c (by simp), ih (fun x hx => hm x (by simp [hx]))]

/-- Serializing a loaded tree gives back exactly the persisted record. -/
theorem to_dict_from_dict : ∀ (d : GoalDict), (Goal.from_dict d).to_dict = d := by
  refine GoalDict.strongInduction ?_
  intro t d cs ih
  simp only [Goal.from_dict]
  rw [to_dict_resolve]
  simp only [Goal.to_dict]
  rw [to_dict_list_from_dict_list_of cs ih]

theorem to_dict_list_from_dict_list (ds : List GoalDict) :
    to_dict_list (from_dict_list ds) = ds :=
  to_dict_list_from_dict_list_of ds (fun d _ => to_dict_from_dict d)

theorem allEffD_eq_of (cs : List Goal)
    (hm : ∀ c ∈ cs, c.effectiveDone = GoalDict.effD c.to_dict) :
    allEffectiveDone cs = allEffD (to_dict_list cs) := by
  induction cs with
  | nil => rfl
  | cons c cs ih =>
    simp only [allEffectiveDone, to_dict_list, allEffD]
    rw [hm c (by simp), ih (fun x hx => hm x (by simp [hx]))]

/-- The derived `effectiveDone` is a function of the persisted form alone. -/
theorem effectiveDone_eq_effD : ∀ (g : Goal),
    g.effectiveDone = GoalDict.effD g.to_dict := by
  refine Goal.strongInd ?_
  intro t d a cs ih
  cases d with
  | explicit b => rfl
  | auto =>
    simp only [Goal.effectiveDone, Goal.to_dict, GoalDict.effD]
    exact allEffD_eq_of cs ih

/-! ## `to_dict` commutes with the structural list operations -/

theorem to_dict_list_length (cs : List Goal) :
    (to_dict_list cs).length = cs.length := by
  induction cs with
  | nil => rfl
  | cons c cs ih => simp [to_dict_list, ih]

theorem to_dict_list_isEmpty (cs : List Goal) :
    (to_dict_list cs).isEmpty = cs.isEmpty := by
  cases cs <;> rfl

theorem to_dict_list_set (cs : List Goal) (c : Goal) :
    ∀ (i : Nat), to_dict_list (cs.set i c) = (to_dict_list cs).set i c.to_dict := by
  induction cs with
  | nil => intro i; rfl
  | cons x xs ih =>
    intro i
    cases i with
    | zero => rfl
    | succ n => simp [to_dict_list, List.set, ih]

theorem to_dict_list_eraseIdx (cs : List Goal) :
    ∀ (i : Nat), to_dict_list (cs.eraseIdx i) = (to_dict_list cs).eraseIdx i := by
  induction cs with
  | nil => intro i; rfl
  | cons x xs ih =>
    intro i
    cases i with
    | zero => rfl
    | succ n => simp [to_dict_list, List.eraseIdx, ih]

theorem to_dict_list_getD (cs : List Goal) :
    ∀ (i : Nat), (to_dict_list cs).getD i default = (cs.getD i default).to_dict := by
  induction cs with
  | nil => intro i; rfl
  | cons x xs ih =>
    intro i
    cases i with
    | zero => rfl
    | succ n =>
      simp only [to_dict_list]
      rw [List.getD_cons_succ, List.getD_cons_succ, ih]

theorem to_dict_list_append (cs ds : List Goal) :
    to_dict_list (cs ++ ds) = to_dict_list cs ++ to_dict_list ds := by
  induction cs with
  | nil => rfl
  | cons x xs ih => simp [to_dict_list, ih]

/-! ## Size bookkeeping: `create` returns true iff goals were added -/

theorem size_resolve (g : Goal) : g.resolve_auto_done.size = g.size := by
  cases g; rfl

theorem size_pos (g : Goal) : 0 < g.size := by
  cases g
  simp only [Goal.size]
  omega

theorem sizeList_append (cs ds : List Goal) :
    sizeList (cs ++ ds) = sizeList cs + sizeList ds := by
  induction cs with
  | nil => simp [sizeList]
  | cons x xs ih => simp [sizeList, ih]; omega

theorem sizeList_set_eq (cs : List Goal) (c : Goal) :
    ∀ (i : Nat), (cs.getD i default).size = c.size →
      sizeList (cs.set i c) = sizeList cs := by
  induction cs with
  | nil => intro i _; rfl
  | cons x xs ih =>
    intro i h
    cases i with
    | zero =>
      simp only [List.getD_cons_zero] at h
      simp [sizeList, List.set, h]
    | succ n =>
      simp only [List.getD_cons_succ] at h
      simp [sizeList, List.set, ih n h]

theorem sizeList_set_lt (cs : List Goal) (c : Goal) :
    ∀ (i : Nat), i < cs.length → (cs.getD i default).size < c.size →
      sizeList cs < sizeList (cs.set i c) := by
  induction cs with
  | nil => intro i h _; simp at h
  | cons x xs ih =>
    intro i hi h
    cases i with
    | zero =>
      simp only [List.getD_cons_zero] at h
      simp only [sizeList, List.set]
      omega
    | succ n =>
      simp only [List.getD_cons_succ] at h
      simp only [List.length_cons, Nat.succ_lt_succ_iff] at hi
      simp only [sizeList, List.set]
      have := ih n hi h
      omega

theorem create_go_size (spec : String) : ∀ (segs : List String) (g g' : Goal)
    (r : Except String Bool), create_go spec segs g = (g', r) →
      (r = .ok true → g.size < g'.size) ∧ (r = .ok false → g'.size = g.size) := by
  intro segs
  induction segs with
  | nil =>
    intro g g' r heq
    simp only [create_go, Prod.mk.injEq] at heq
    obtain ⟨h1, h2⟩ := heq
    subst h1; subst h2
    exact ⟨fun h => by simp at h, fun _ => rfl⟩
  | cons seg rest ih =>
    intro g g' r heq
    cases g with
    | mk t d a cs =>
      simp only [create_go, Goal.children, Goal.title, Goal.autoDoneResult] at heq
      split at heq
      · split at heq
        · cases heq
          exact ⟨fun h => by simp at h, fun h => by simp at h⟩
        · split at heq
          · next hrange =>
            rcases hp : create_go spec rest (cs.getD (toIntVal seg).toNat default)
              with ⟨c, res⟩
            rw [hp] at heq
            cases heq
            have hres := ih _ _ _ hp
            constructor
            · intro hr
              rw [size_resolve]
              simp only [Goal.size]
              have := sizeList_set_lt cs c _ hrange.2 (hres.1 hr)
              omega
            · intro hr
              rw [size_resolve]
              simp only [Goal.size]
              have := sizeList_set_eq cs c _ (hres.2 hr).symm
              omega
          · cases heq
            exact ⟨fun h => by simp at h, fun h => by simp at h⟩
      · split at heq
        · next j hfind =>
          rcases hp : create_go spec rest (cs.getD j default) with ⟨c, res⟩
          rw [hp] at heq
          cases heq
          have hres := ih _ _ _ hp
          constructor
          · intro hr
            rw [size_resolve]
            simp only [Goal.size]
            have := sizeList_set_lt cs c _ (findTitleIdx_lt_length hfind) (hres.1 hr)
            omega
          · intro hr
            rw [size_resolve]
            simp only [Goal.size]
            have := sizeList_set_eq cs c _ (hres.2 hr).symm
            omega
        · rcases hp : create_go spec rest (Goal.mk seg (.explicit false) false [])
            with ⟨c, res⟩
          rw [hp] at heq
          cases heq
          constructor
          · intro _
            rw [size_resolve]
            simp only [Goal.size, sizeList_append, sizeList]
            have := size_pos c
            omega
          · intro hr
            cases res <;> simp at hr
theorem create_segs_size (f : List Goal) (segs : List String) (spec : String)
    (f' : List Goal) (r : Except String Bool)
    (heq : create_segs f segs spec = (f', r)) :
    (r = .ok true → sizeList f < sizeList f') ∧
      (r = .ok false → sizeList f' = sizeList f) := by
  cases segs with
  | nil =>
    simp only [create_segs, Prod.mk.injEq] at heq
    obtain ⟨h1, h2⟩ := heq
    subst h1; subst h2
    exact ⟨fun h => by simp at h, fun _ => rfl⟩
  | cons seg rest =>
    simp only [create_segs] at heq
    split at heq
    · split at heq
      · cases heq
        exact ⟨fun h => by simp at h, fun h => by simp at h⟩
      · split at heq
        · next hrange =>
          rcases hp : create_go spec rest (f.getD (toIntVal seg).toNat default)
            with ⟨c, res⟩
          rw [hp] at heq
          cases heq
          have hres := create_go_size spec rest _ _ _ hp
          exact ⟨fun hr => sizeList_set_lt f c _ hrange.2 (hres.1 hr),
            fun hr => sizeList_set_eq f c _ (hres.2 hr).symm⟩
        · cases heq
          exact ⟨fun h => by simp at h, fun h => by simp at h⟩
    · split at heq
      · next j hfind =>
        rcases hp : create_go spec rest (f.getD j default) with ⟨c, res⟩
        rw [hp] at heq
        cases heq
        have hres := create_go_size spec rest _ _ _ hp
        exact ⟨fun hr => sizeList_set_lt f c _ (findTitleIdx_lt_length hfind) (hres.1 hr),
          fun hr => sizeList_set_eq f c _ (hres.2 hr).symm⟩
      · rcases hp : create_go spec rest (Goal.mk seg (.explicit false) false [])
          with ⟨c, res⟩
        rw [hp] at heq
        cases heq
        constructor
        · intro _
          rw [sizeList_append]
          have := size_pos c
          simp only [sizeList]
          omega
        · intro hr
          cases res <;> simp at hr

/-! ## Created titles are never integer literals -/

theorem titlesOk_resolve (g : Goal) :
    g.resolve_auto_done.titlesOk = g.titlesOk := by
  cases g; rfl

theorem titlesOkList_iff (l : List Goal) :
    titlesOkList l = true ↔ ∀ g ∈ l, g.titlesOk = true := by
  induction l with
  | nil => simp [titlesOkList]
  | cons g gs ih => simp [titlesOkList, ih]

theorem default_titlesOk : (default : Goal).titlesOk = true := rfl

theorem titlesOk_set {cs : List Goal} (h : titlesOkList cs = true) {c : Goal}
    (hc : c.titlesOk = true) (i : Nat) : titlesOkList (cs.set i c) = true := by
  rw [titlesOkList_iff] at h ⊢
  intro g hg
  rcases List.mem_or_eq_of_mem_set hg with hmem | rfl
  · exact h g hmem
  · exact hc

theorem titlesOk_append {cs ds : List Goal} (h : titlesOkList cs = true)
    (h' : titlesOkList ds = true) : titlesOkList (cs ++ ds) = true := by
  rw [titlesOkList_iff] at h h' ⊢
  intro g hg
  rcases List.mem_append.mp hg with hmem | hmem
  · exact h g hmem
  · exact h' g hmem

theorem titlesOk_getD {cs : List Goal} (h : titlesOkList cs = true) (i : Nat) :
    (cs.getD i default).titlesOk = true := by
  by_cases hi : i < cs.length
  · rw [List.getD_eq_getElem _ _ hi]
    exact (titlesOkList_iff cs).mp h _ (List.getElem_mem hi)
  · rw [List.getD_eq_default _ _ (Nat.le_of_not_lt hi)]
    exact default_titlesOk

theorem titlesOk_mk {t d a cs} :
    (Goal.mk t d a cs).titlesOk = (!string_is_int t && titlesOkList cs) := rfl

theorem create_go_titlesOk (spec : String) : ∀ (segs : List String) (g : Goal),
    g.titlesOk = true → ((create_go spec segs g).1).titlesOk = true := by
  intro segs
  induction segs with
  | nil => intro g h; exact h
  | cons seg rest ih =>
    intro g h
    cases g with
    | mk t d a cs =>
      rw [titlesOk_mk, Bool.and_eq_true] at h
      obtain ⟨ht, hcs⟩ := h
      simp only [create_go, Goal.children, Goal.title, Goal.autoDoneResult]
      split
      · split
        · rw [titlesOk_mk, Bool.and_eq_true]; exact ⟨ht, hcs⟩
        · split
          · rw [titlesOk_resolve, titlesOk_mk, Bool.and_eq_true]
            exact ⟨ht, titlesOk_set hcs (ih _ (titlesOk_getD hcs _)) _⟩
          · rw [titlesOk_mk, Bool.and_eq_true]; exact ⟨ht, hcs⟩
      · next hseg =>
        split
        · rw [titlesOk_resolve, titlesOk_mk, Bool.and_eq_true]
          exact ⟨ht, titlesOk_set hcs (ih _ (titlesOk_getD hcs _)) _⟩
        · rw [titlesOk_resolve, titlesOk_mk, Bool.and_eq_true]
          refine ⟨ht, titlesOk_append hcs ?_⟩
          simp only [titlesOkList, Bool.and_eq_true]
          refine ⟨ih _ ?_, by simp [titlesOkList]⟩
          rw [titlesOk_mk, Bool.and_eq_true]
          refine ⟨?_, by simp [titlesOkList]⟩
          simp only [Bool.not_eq_true] at hseg
          simp only [Bool.not_eq_true']
          exact hseg

theorem create_segs_titlesOk (f : List Goal) (segs : List String) (spec : String)
    (h : titlesOkList f = true) :
    titlesOkList (create_segs f segs spec).1 = true := by
  cases segs with
  | nil => exact h
  | cons seg rest =>
    simp only [create_segs]
    split
    · split
      · exact h
      · split
        · exact titlesOk_set h (create_go_titlesOk spec rest _ (titlesOk_getD h _)) _
        · exact h
    · next hseg =>
      split
      · exact titlesOk_set h (create_go_titlesOk spec rest _ (titlesOk_getD h _)) _
      · refine titlesOk_append h ?_
        simp only [titlesOkList, Bool.and_eq_true]
        refine ⟨create_go_titlesOk spec rest _ ?_, by simp [titlesOkList]⟩
        rw [titlesOk_mk, Bool.and_eq_true]
        refine ⟨?_, by simp [titlesOkList]⟩
        simp only [Bool.not_eq_true] at hseg
        simp only [Bool.not_eq_true']
        exact hseg

/-! ## Failure conditions of `create` -/

theorem create_go_last_int (spec : String) : ∀ (segs : List String) (g g' : Goal)
    (r : Except String Bool) (s : String), create_go spec segs g = (g', r) →
    segs.getLast? = some s → string_is_int s = true → ∃ e, r = .error e := by
  intro segs
  induction segs with
  | nil => intro g g' r s _ hlast _; simp at hlast
  | cons seg rest ih =>
    intro g g' r s heq hlast hint
    cases g with
    | mk t d a cs =>
      simp only [create_go, Goal.children, Goal.title, Goal.autoDoneResult] at heq
      cases rest with
      | nil =>
        simp only [List.getLast?_singleton, Option.some.injEq] at hlast
        subst hlast
        split at heq
        · split at heq
          · cases heq
            exact ⟨_, rfl⟩
          · next hemp => simp at hemp
        · next hseg => exact absurd hint hseg
      | cons r2 rs =>
        rw [List.getLast?_cons_cons] at hlast
        split at heq
        · split at heq
          · cases heq
            exact ⟨_, rfl⟩
          · split at heq
            · rcases hp : create_go spec (r2 :: rs)
                (cs.getD (toIntVal seg).toNat default) with ⟨c, res⟩
              rw [hp] at heq
              cases heq
              exact ih _ _ _ _ hp hlast hint
            · cases heq
              exact ⟨_, rfl⟩
        · split at heq
          · next j hfind =>
            rcases hp : create_go spec (r2 :: rs) (cs.getD j default) with ⟨c, res⟩
            rw [hp] at heq
            cases heq
            exact ih _ _ _ _ hp hlast hint
          · rcases hp : create_go spec (r2 :: rs)
              (Goal.mk seg (.explicit false) false []) with ⟨c, res⟩
            rw [hp] at heq
            cases heq
            obtain ⟨e, he⟩ := ih _ _ _ _ hp hlast hint
            exact ⟨e, by rw [he]⟩

theorem create_segs_last_int (f : List Goal) (segs : List String) (spec : String)
    (f' : List Goal) (r : Except String Bool) (s : String)
    (heq : create_segs f segs spec = (f', r)) (hlast : segs.getLast? = some s)
    (hint : string_is_int s = true) : ∃ e, r = .error e := by
  cases segs with
  | nil => simp at hlast
  | cons seg rest =>
    simp only [create_segs] at heq
    cases rest with
    | nil =>
      simp only [List.getLast?_singleton, Option.some.injEq] at hlast
      subst hlast
      split at heq
      · split at heq
        · cases heq
          exact ⟨_, rfl⟩
        · next hemp => simp at hemp
      · next hseg => exact absurd hint hseg
    | cons r2 rs =>
      rw [List.getLast?_cons_cons] at hlast
      split at heq
      · split at heq
        · cases heq
          exact ⟨_, rfl⟩
        · split at heq
          · rcases hp : create_go spec (r2 :: rs)
              (f.getD (toIntVal seg).toNat default) with ⟨c, res⟩
            rw [hp] at heq
            cases heq
            exact create_go_last_int spec _ _ _ _ _ hp hlast hint
          · cases heq
            exact ⟨_, rfl⟩
      · split at heq
        · next j hfind =>
          rcases hp : create_go spec (r2 :: rs) (f.getD j default) with ⟨c, res⟩
          rw [hp] at heq
          cases heq
          exact create_go_last_int spec _ _ _ _ _ hp hlast hint
        · rcases hp : create_go spec (r2 :: rs)
            (Goal.mk seg (.explicit false) false []) with ⟨c, res⟩
          rw [hp] at heq
          cases heq
          obtain ⟨e, he⟩ := create_go_last_int spec _ _ _ _ _ hp hlast hint
          exact ⟨e, by rw [he]⟩

theorem create_go_idx_oob (spec seg : String) (rest : List String) (g g' : Goal)
    (r : Except String Bool) (heq : create_go spec (seg :: rest) g = (g', r))
    (hrest : rest ≠ []) (hint : string_is_int seg = true)
    (hoob : ¬(0 ≤ toIntVal seg ∧ (toIntVal seg).toNat < g.children.length)) :
    r = .error ("Index not in range: " ++ toString (toIntVal seg)) := by
  cases g with
  | mk t d a cs =>
    simp only [Goal.children] at hoob
    have hemp : ¬(rest.isEmpty = true) := by
      cases rest with
      | nil => exact absurd rfl hrest
      | cons x xs => simp
    simp only [create_go, Goal.children, Goal.title, Goal.autoDoneResult] at heq
    rw [if_pos hint, if_neg hemp, if_neg hoob] at heq
    cases heq
    rfl

/-! ## Well-formedness at every node of a subtree -/

theorem mem_subgoalsList : ∀ (cs : List Goal) (n : Goal),
    n ∈ subgoalsList cs ↔ ∃ c ∈ cs, n ∈ c.subgoals := by
  intro cs n
  induction cs with
  | nil => simp [subgoalsList]
  | cons c cs ih => simp [subgoalsList, ih]

theorem WF_subgoals : ∀ (g : Goal), g.WF = true →
    ∀ n ∈ g.subgoals, n.WF = true := by
  refine Goal.strongInd ?_
  intro t d a cs ih h n hn
  simp only [Goal.subgoals, List.mem_cons] at hn
  rcases hn with rfl | hn
  · exact h
  · obtain ⟨c, hc, hnc⟩ := (mem_subgoalsList cs n).mp hn
    exact ih c hc ((allWF_iff cs).mp (WF_mk.mp h).1 c hc) n hnc

/-! ## `delete` performs exactly the specified removal -/

theorem delete_resolve_go_ne_nil (segs : List String) (g : Goal) (p : List Nat)
    (h : delete_resolve_go segs g = .ok (some p)) : p ≠ [] := by
  cases segs with
  | nil => simp [delete_resolve_go] at h
  | cons seg rest =>
    simp only [delete_resolve_go] at h
    split at h
    · split at h
      · split at h
        · simp only [Except.ok.injEq, Option.some.injEq] at h
          subst h
          simp
        · simp at h
      · split at h
        · simp at h
        · simp only [Except.ok.injEq, Option.some.injEq] at h
          subst h
          simp
    · split at h
      · split at h
        · split at h
          · simp at h
          · next o ho =>
            simp only [Except.ok.injEq] at h
            cases o with
            | none => simp at h
            | some q =>
              simp only [Option.map_some', Option.some.injEq] at h
              subst h
              simp
        · simp at h
      · split at h
        · simp at h
        · split at h
          · simp at h
          · next o ho =>
            simp only [Except.ok.injEq] at h
            cases o with
            | none => simp at h
            | some q =>
              simp only [Option.map_some', Option.some.injEq] at h
              subst h
              simp

theorem delete_go_resolved : ∀ (segs : List String) (g : Goal) (p : List Nat),
    delete_resolve_go segs g = .ok (some p) →
    ∃ g', delete_go segs g = .ok (g', true) ∧
      g'.to_dict = removeFixIn p g.to_dict := by
  intro segs
  induction segs with
  | nil => intro g p h; simp [delete_resolve_go] at h
  | cons seg rest ih =>
    intro g p h
    cases g with
    | mk t d a cs =>
      simp only [delete_resolve_go, Goal.children] at h
      simp only [delete_go, Goal.children, Goal.title, Goal.doneF, Goal.autoDoneResult]
      split at h
      · -- last segment
        next hemp =>
        rw [if_pos hemp]
        split at h
        · -- integer segment
          next hint =>
          rw [if_pos hint]
          split at h
          · -- in range
            next hrange =>
            rw [if_pos hrange]
            simp only [Except.ok.injEq, Option.some.injEq] at h
            subst h
            by_cases hre : (cs.eraseIdx (toIntVal seg).toNat).isEmpty = true
            · rw [if_pos hre]
              refine ⟨_, rfl, ?_⟩
              rw [to_dict_resolve, to_dict_withDone, resolve_title, resolve_children]
              simp only [Goal.title, Goal.children, Goal.to_dict, removeFixIn,
                List.isEmpty_nil, if_true]
              rw [← to_dict_list_eraseIdx, to_dict_list_isEmpty, if_pos hre]
            · rw [if_neg hre]
              refine ⟨_, rfl, ?_⟩
              rw [to_dict_resolve]
              simp only [Goal.to_dict, removeFixIn, List.isEmpty_nil, if_true]
              rw [← to_dict_list_eraseIdx, to_dict_list_isEmpty, if_neg hre]
          · simp at h
        · -- title segment
          next hseg =>
          rw [if_neg hseg]
          split at h
          · simp at h
          · next j hfind =>
            simp only [Except.ok.injEq, Option.some.injEq] at h
            subst h
            by_cases hre : (cs.eraseIdx j).isEmpty = true
            · rw [if_pos hre]
              refine ⟨_, rfl, ?_⟩
              rw [to_dict_resolve, to_dict_withDone, resolve_title, resolve_children]
              simp only [Goal.title, Goal.children, Goal.to_dict, removeFixIn,
                List.isEmpty_nil, if_true]
              rw [← to_dict_list_eraseIdx, to_dict_list_isEmpty, if_pos hre]
            · rw [if_neg hre]
              refine ⟨_, rfl, ?_⟩
              rw [to_dict_resolve]
              simp only [Goal.to_dict, removeFixIn, List.isEmpty_nil, if_true]
              rw [← to_dict_list_eraseIdx, to_dict_list_isEmpty, if_neg hre]
      · -- descend
        next hemp =>
        rw [if_neg hemp]
        split at h
        · -- integer segment
          next hint =>
          rw [if_pos hint]
          split at h
          · -- in range
            next hrange =>
            rw [if_pos hrange]
            split at h
            · simp at h
            · next o ho =>
              simp only [Except.ok.injEq] at h
              cases o with
              | none => simp at h
              | some q =>
                simp only [Option.map_some', Option.some.injEq] at h
                subst h
                have hq := delete_resolve_go_ne_nil rest _ q ho
                obtain ⟨c', hc', hdict⟩ := ih _ q ho
                simp only [hc', if_true]
                refine ⟨_, rfl, ?_⟩
                rw [to_dict_resolve]
                simp only [Goal.to_dict, removeFixIn]
                rw [if_neg (by simpa using hq)]
                rw [to_dict_list_set, to_dict_list_getD, hdict]
          · simp at h
        · -- title segment
          next hseg =>
          rw [if_neg hseg]
          split at h
          · simp at h
          · next j hfind =>
            split at h
            · simp at h
            · next o ho =>
              simp only [Except.ok.injEq] at h
              cases o with
              | none => simp at h
              | some q =>
                simp only [Option.map_some', Option.some.injEq] at h
                subst h
                have hq := delete_resolve_go_ne_nil rest _ q ho
                obtain ⟨c', hc', hdict⟩ := ih _ q ho
                simp only [hfind, hc', if_true]
                refine ⟨_, rfl, ?_⟩
                rw [to_dict_resolve]
                simp only [Goal.to_dict, removeFixIn]
                rw [if_neg (by simpa using hq)]
                rw [to_dict_list_set, to_dict_list_getD, hdict]

theorem delete_segs_resolved (f : List Goal) (segs : List String) (p : List Nat)
    (h : delete_resolve f segs = .ok (some p)) :
    ∃ f', delete_segs f segs = .ok (f', true) ∧
      to_dict_list f' = removeFixAt (to_dict_list f) p := by
  cases segs with
  | nil => simp [delete_resolve] at h
  | cons seg rest =>
    simp only [delete_resolve] at h
    simp only [delete_segs]
    split at h
    · -- last segment: root-level removal, no parent to fix
      next hemp =>
      rw [if_pos hemp]
      split at h
      · next hint =>
        rw [if_pos hint]
        split at h
        · next hrange =>
          rw [if_pos hrange]
          simp only [Except.ok.injEq, Option.some.injEq] at h
          subst h
          refine ⟨_, rfl, ?_⟩
          simp only [removeFixAt, List.isEmpty_nil, if_true]
          rw [to_dict_list_eraseIdx]
        · simp at h
      · next hseg =>
        rw [if_neg hseg]
        split at h
        · simp at h
        · next j hfind =>
          simp only [Except.ok.injEq, Option.some.injEq] at h
          subst h
          refine ⟨_, rfl, ?_⟩
          simp only [removeFixAt, List.isEmpty_nil, if_true]
          rw [to_dict_list_eraseIdx]
    · -- descend into a root goal
      next hemp =>
      rw [if_neg hemp]
      split at h
      · next hint =>
        rw [if_pos hint]
        split at h
        · next hrange =>
          rw [if_pos hrange]
          split at h
          · simp at h
          · next o ho =>
            simp only [Except.ok.injEq] at h
            cases o with
            | none => simp at h
            | some q =>
              simp only [Option.map_some', Option.some.injEq] at h
              subst h
              have hq := delete_resolve_go_ne_nil rest _ q ho
              obtain ⟨c', hc', hdict⟩ := delete_go_resolved rest _ q ho
              simp only [hc']
              refine ⟨_, rfl, ?_⟩
              simp only [removeFixAt]
              rw [if_neg (by simpa using hq)]
              rw [to_dict_list_set, to_dict_list_getD, hdict]
        · simp at h
      · next hseg =>
        rw [if_neg hseg]
        split at h
        · simp at h
        · next j hfind =>
          split at h
          · simp at h
          · next o ho =>
            simp only [Except.ok.injEq] at h
            cases o with
            | none => simp at h
            | some q =>
              simp only [Option.map_some', Option.some.injEq] at h
              subst h
              have hq := delete_resolve_go_ne_nil rest _ q ho
              obtain ⟨c', hc', hdict⟩ := delete_go_resolved rest _ q ho
              simp only [hc']
              refine ⟨_, rfl, ?_⟩
              simp only [removeFixAt]
              rw [if_neg (by simpa using hq)]
              rw [to_dict_list_set, to_dict_list_getD, hdict]

/-! ## Behaviour of `find` -/

/-- A title segment with no match yields not-found (`None`), not a failure. -/
theorem find_go_title_miss (l : List Goal) (res : Option Goal) (s : String)
    (rest : List String) (hseg : string_is_int s = false)
    (hmiss : findTitleIdx l s = none) : find_go l res (s :: rest) = .ok none := by
  simp only [find_go]
  rw [if_neg (by simp [hseg]), hmiss]

/-- An integer segment whose index is out of range raises the
index-out-of-range `ValueError`. -/
theorem find_go_idx_oob (l : List Goal) (res : Option Goal) (s : String)
    (rest : List String) (hint : string_is_int s = true)
    (hoob : ¬(0 ≤ toIntVal s ∧ (toIntVal s).toNat < l.length)) :
    find_go l res (s :: rest) =
      .error ("Index not in range: " ++ toString (toIntVal s)) := by
  simp only [find_go]
  rw [if_pos hint, if_neg hoob]

/-- Running `find` on `"a.0"`: when the first goal titled `a` has at least one child,
the result is that child. -/
theorem find_a0 (f : List Goal) (j : Nat) (hfind : findTitleIdx f "a" = some j)
    (hne : (f.getD j default).children ≠ []) :
    find_from_specifier f "a.0" =
      .ok (some ((f.getD j default).children.getD 0 default)) := by
  have hsplit : splitSegs "a.0" = ["a", "0"] := rfl
  rw [find_from_specifier, hsplit]
  simp only [find_go]
  rw [if_neg (by decide)]
  split
  · next hmiss => rw [hfind] at hmiss; cases hmiss
  · next j1 heq =>
    rw [hfind] at heq
    cases heq
    rw [if_pos (by decide : string_is_int "0" = true)]
    rw [if_pos (⟨by decide, List.length_pos.mpr hne⟩ :
      0 ≤ toIntVal "0" ∧ (toIntVal "0").toNat < (f.getD j default).children.length)]
    rfl

/-- Running `find` on `"a.5"`: when the first goal titled `a` has fewer than six
children, the walk fails with the index-out-of-range `ValueError`. -/
theorem find_a5 (f : List Goal) (j : Nat) (hfind : findTitleIdx f "a" = some j)
    (hlt : (f.getD j default).children.length < 6) :
    find_from_specifier f "a.5" = .error "Index not in range: 5" := by
  have hsplit : splitSegs "a.5" = ["a", "5"] := rfl
  rw [find_from_specifier, hsplit]
  simp only [find_go]
  rw [if_neg (by decide)]
  split
  · next hmiss => rw [hfind] at hmiss; cases hmiss
  · next j1 heq =>
    rw [hfind] at heq
    cases heq
    rw [if_pos (by decide : string_is_int "5" = true)]
    have hoob : ¬(0 ≤ toIntVal "5" ∧
        (toIntVal "5").toNat < (f.getD j default).children.length) := by
      intro hc
      have h5 : (toIntVal "5").toNat = 5 := rfl
      rw [h5] at hc
      omega
    rw [if_neg hoob]
    rfl

/-! ## Claim theorems -/

/-- C1: for every goal tree reachable through the public operations (create,
find, delete, assigning the `done` property, loading via `from_dict`) and for
every node in it, reading `done` returns the explicit boolean in explicit
mode and otherwise the conjunction of all children's effective done values
(vacuously true for zero children); no stale derived value is observably
returned, because every public mutation re-establishes well-formedness of the
cached `_auto_done_result` at every node. -/
theorem claim_C1 :
    (∀ g : Goal, g.WF = true → g.done = g.effectiveDone)
    ∧ (∀ g : Goal, g.WF = true → ∀ n ∈ g.subgoals, n.done = n.effectiveDone)
    ∧ (∀ d : GoalDict, (Goal.from_dict d).WF = true)
    ∧ (∀ (f : List Goal) (p : List Nat) (v : Doneness), allWF f = true →
        allWF (setDoneAt f p v) = true)
    ∧ (∀ (f : List Goal) (spec : String), allWF f = true →
        allWF (create_from_specifier f spec).1 = true)
    ∧ (∀ (f : List Goal) (spec : String) (f' : List Goal) (b : Bool),
        allWF f = true → delete_from_specifier f spec = .ok (f', b) →
        allWF f' = true) :=
  ⟨fun _ h => done_eq_effectiveDone h,
   fun g h n hn => done_eq_effectiveDone (WF_subgoals g h n hn),
   from_dict_WF,
   fun f p v h => setDoneAt_WF f p v h,
   fun f spec h => create_from_specifier_WF f spec h,
   fun f spec f' b h heq => delete_from_specifier_WF f spec h f' b heq⟩

/-- Witness for C1 at concrete inputs: the getter agrees with the derived
value on a well-formed auto node, and each operation's preservation holds on
a concrete tree. -/
theorem claim_C1_witness :
    ((Goal.mk "a" .auto true [Goal.mk "b" (.explicit true) false []]).done
      = (Goal.mk "a" .auto true [Goal.mk "b" (.explicit true) false []]).effectiveDone)
    ∧ allWF (setDoneAt [Goal.mk "a" .auto true [Goal.mk "b" (.explicit true) false []]]
        [0, 0] (.explicit false)) = true
    ∧ allWF (create_from_specifier [] "a.b.c").1 = true
    ∧ allWF [Goal.mk "a" .auto false [Goal.mk "b" (.explicit false) true []]] = true :=
  ⟨claim_C1.1 _ rfl,
   claim_C1.2.2.2.1 _ [0, 0] (.explicit false) rfl,
   claim_C1.2.2.2.2.1 [] "a.b.c" rfl,
   claim_C1.2.2.2.2.2
     [Goal.mk "a" .auto false [Goal.mk "b" .auto false
       [Goal.mk "c" (.explicit false) false []]]]
     "a.b.c" _ true rfl rfl⟩

/-- C2 (code bug): the `_ChildList` hooks cover append, insert, remove, pop,
`del`, clear and extend, but item replacement (`lst[i] = x`) is not hooked —
`__setitem__` is inherited from `list` and triggers no recomputation, leaving
a stale `_auto_done_result` — and `lst += xs` runs `__iadd__`, which discards
the result of `list.__add__` (adding nothing) and returns `None`.  At the
failing input below, replacing the only (done) child of a done Auto parent by
an un-done child leaves the parent's `done` reading `true` while its derived
`effectiveDone` is `false`. -/
theorem claim_C2 :
    (Goal.mk "p" .auto true [Goal.mk "c" (.explicit true) false []]).WF = true
    ∧ (childSetItem (Goal.mk "p" .auto true [Goal.mk "c" (.explicit true) false []])
        0 (Goal.mk "c2" (.explicit false) false [])).done = true
    ∧ (childSetItem (Goal.mk "p" .auto true [Goal.mk "c" (.explicit true) false []])
        0 (Goal.mk "c2" (.explicit false) false [])).effectiveDone = false
    ∧ (childSetItem (Goal.mk "p" .auto true [Goal.mk "c" (.explicit true) false []])
        0 (Goal.mk "c2" (.explicit false) false [])).WF = false
    ∧ (childIAdd (Goal.mk "p" .auto true [Goal.mk "c" (.explicit true) false []])
        [Goal.mk "x" (.explicit false) false []]).children
      = (Goal.mk "p" .auto true [Goal.mk "c" (.explicit true) false []]).children
    ∧ (childAppend (Goal.mk "p" .auto true [Goal.mk "c" (.explicit true) false []])
        (Goal.mk "x" (.explicit false) false [])).WF = true
    ∧ (childRemove (Goal.mk "p" .auto true [Goal.mk "c" (.explicit true) false []])
        0).WF = true
    ∧ (childClear (Goal.mk "p" .auto true [Goal.mk "c" (.explicit true) false []])).WF
      = true
    ∧ (childExtend (Goal.mk "p" .auto true [Goal.mk "c" (.explicit true) false []])
        [Goal.mk "x" (.explicit false) false []]).WF = true :=
  ⟨rfl, rfl, rfl, rfl, rfl, rfl, rfl, rfl, rfl⟩

/-- C3: creating `"a.b.c"` on an empty root list yields three nested goals
`a`, `b`, `c` with `a` and `b` in Auto mode and `c` explicit `false`, and
returns true; repeating it creates nothing and returns false.  In general the
returned flag is true iff the total number of goals grew, and descending into
or creating a child forces the current parent to Auto (`a` explicit `true`
becomes Auto when `"a.b"` is created below it). -/
theorem claim_C3 :
    create_from_specifier [] "a.b.c" =
      ([Goal.mk "a" .auto false [Goal.mk "b" .auto false
        [Goal.mk "c" (.explicit false) false []]]], .ok true)
    ∧ create_from_specifier
        [Goal.mk "a" .auto false [Goal.mk "b" .auto false
          [Goal.mk "c" (.explicit false) false []]]] "a.b.c" =
      ([Goal.mk "a" .auto false [Goal.mk "b" .auto false
        [Goal.mk "c" (.explicit false) false []]]], .ok false)
    ∧ create_from_specifier [Goal.mk "a" (.explicit true) false []] "a.b" =
      ([Goal.mk "a" .auto false [Goal.mk "b" (.explicit false) false []]], .ok true)
    ∧ (∀ (f : List Goal) (spec : String) (f' : List Goal) (b : Bool),
        create_from_specifier f spec = (f', .ok b) →
        (b = true ↔ sizeList f < sizeList f')) := by
  refine ⟨rfl, rfl, rfl, ?_⟩
  intro f spec f' b heq
  have h := create_segs_size f (splitSegs spec) spec f' (.ok b) heq
  cases b with
  | true => exact ⟨fun _ => h.1 rfl, fun _ => rfl⟩
  | false =>
    constructor
    · intro hb; cases hb
    · intro hlt
      have := h.2 rfl
      omega

/-- Witness for C3's generic conjunct at the concrete creation of
`"a.b.c"`. -/
theorem claim_C3_witness :
    (true = true ↔ sizeList [] < sizeList
      [Goal.mk "a" .auto false [Goal.mk "b" .auto false
        [Goal.mk "c" (.explicit false) false []]]]) :=
  claim_C3.2.2.2 [] "a.b.c" _ true rfl

/-- C4: whenever the delete walk resolves its last segment to a node (at path
`p`), `delete_from_specifier` returns true and the resulting forest is, on
the persisted plain-data form, exactly the input with the node at `p` erased
from its containing list — and with that list's owner forced to explicit
`false` whenever the removal emptied it (a parent exists exactly when `p`
descends below the root list). -/
theorem claim_C4 (f : List Goal) (spec : String) (p : List Nat)
    (h : delete_resolve f (splitSegs spec) = .ok (some p)) :
    ∃ f', delete_from_specifier f spec = .ok (f', true) ∧
      to_dict_list f' = removeFixAt (to_dict_list f) p :=
  delete_segs_resolved f (splitSegs spec) p h

/-- Witness for C4: deleting `"a.b"`, the only child of an Auto parent. -/
theorem claim_C4_witness :
    ∃ f', delete_from_specifier
        [Goal.mk "a" .auto false [Goal.mk "b" (.explicit false) false []]] "a.b" =
      .ok (f', true) ∧
      to_dict_list f' = removeFixAt
        (to_dict_list [Goal.mk "a" .auto false [Goal.mk "b" (.explicit false) false []]])
        [0, 0] :=
  claim_C4 [Goal.mk "a" .auto false [Goal.mk "b" (.explicit false) false []]]
    "a.b" [0, 0] rfl

/-- C5: in `create`, an integer literal as the last specifier segment always
fails; an integer literal as a non-last segment must resolve to an existing
zero-based index in the current search list or the walk fails with the
index-out-of-range error; and no goal whose title is syntactically an integer
literal is ever created. -/
theorem claim_C5 :
    (∀ (f : List Goal) (spec : String) (f' : List Goal) (r : Except String Bool)
        (s : String), create_from_specifier f spec = (f', r) →
        (splitSegs spec).getLast? = some s → string_is_int s = true →
        ∃ e, r = .error e)
    ∧ (∀ (spec seg : String) (rest : List String) (g g' : Goal)
        (r : Except String Bool), create_go spec (seg :: rest) g = (g', r) →
        rest ≠ [] → string_is_int seg = true →
        ¬(0 ≤ toIntVal seg ∧ (toIntVal seg).toNat < g.children.length) →
        r = .error ("Index not in range: " ++ toString (toIntVal seg)))
    ∧ (∀ (f : List Goal) (spec : String), titlesOkList f = true →
        titlesOkList (create_from_specifier f spec).1 = true) :=
  ⟨fun f spec f' r s heq hl hi => create_segs_last_int f _ spec f' r s heq hl hi,
   fun spec seg rest g g' r heq hrest hint hoob =>
     create_go_idx_oob spec seg rest g g' r heq hrest hint hoob,
   fun f spec h => create_segs_titlesOk f _ spec h⟩

/-- Witness for C5 at concrete inputs: `"a.2"` on an empty list fails, an
out-of-range non-last index fails, and created titles stay non-numeric. -/
theorem claim_C5_witness :
    (∃ e, (Except.error "Last element in specifier cannot be an index: a.2" :
        Except String Bool) = .error e)
    ∧ (Except.error "Index not in range: 3" : Except String Bool) =
        .error ("Index not in range: " ++ toString (toIntVal "3"))
    ∧ titlesOkList (create_from_specifier [] "a.b.c").1 = true :=
  ⟨claim_C5.1 [] "a.2" _ _ "2" rfl rfl rfl,
   claim_C5.2.1 "x" "3" ["y"] default default _ rfl (by simp) rfl (by decide),
   claim_C5.2.2 [] "a.b.c" rfl⟩

/-- C6: in `find`, a title segment with no matching child yields not-found
(`None`) without failing, while an integer segment whose index is out of
range fails with the index-out-of-range error, and the two outcomes are
distinguished; `"a.0"` with `a` having at least one child returns that child,
and `"a.5"` with `a` having fewer than six children fails. -/
theorem claim_C6 :
    (∀ (l : List Goal) (res : Option Goal) (s : String) (rest : List String),
        string_is_int s = false → findTitleIdx l s = none →
        find_go l res (s :: rest) = .ok none)
    ∧ (∀ (l : List Goal) (res : Option Goal) (s : String) (rest : List String),
        string_is_int s = true →
        ¬(0 ≤ toIntVal s ∧ (toIntVal s).toNat < l.length) →
        find_go l res (s :: rest) =
          .error ("Index not in range: " ++ toString (toIntVal s)))
    ∧ (∀ (f : List Goal) (j : Nat), findTitleIdx f "a" = some j →
        (f.getD j default).children ≠ [] →
        find_from_specifier f "a.0" =
          .ok (some ((f.getD j default).children.getD 0 default)))
    ∧ (∀ (f : List Goal) (j : Nat), findTitleIdx f "a" = some j →
        (f.getD j default).children.length < 6 →
        find_from_specifier f "a.5" = .error "Index not in range: 5") :=
  ⟨find_go_title_miss, find_go_idx_oob, find_a0, find_a5⟩

/-- Witness for C6 at concrete inputs. -/
theorem claim_C6_witness :
    find_go [] none ["x"] = .ok none
    ∧ find_go [] none ["5"] = .error ("Index not in range: " ++ toString (toIntVal "5"))
    ∧ find_from_specifier [Goal.mk "a" .auto true [Goal.mk "b" (.explicit true) false []]]
        "a.0" = .ok (some (([Goal.mk "a" .auto true [Goal.mk "b" (.explicit true) false []]].getD
          0 default).children.getD 0 default))
    ∧ find_from_specifier [Goal.mk "a" .auto true [Goal.mk "b" (.explicit true) false []]]
        "a.5" = .error "Index not in range: 5" :=
  ⟨claim_C6.1 [] none "x" [] rfl rfl,
   claim_C6.2.1 [] none "5" [] rfl (by decide),
   claim_C6.2.2.1 [Goal.mk "a" .auto true [Goal.mk "b" (.explicit true) false []]] 0
     rfl (List.cons_ne_nil _ _),
   claim_C6.2.2.2 [Goal.mk "a" .auto true [Goal.mk "b" (.explicit true) false []]] 0
     rfl (by simp [Goal.children])⟩

/-- C7: serializing each root to the persisted plain-data form and reloading
reproduces an identical tree — same titles, same explicit/auto modes, same
child order — and the same derived `effectiveDone` values, where for
Auto-mode nodes the derived value is recomputed on load from the loaded
children (the loaded tree is well-formed) rather than read from storage (the
storage format does not even contain it). -/
theorem claim_C7 :
    (∀ d : GoalDict, (Goal.from_dict d).to_dict = d)
    ∧ (∀ ds : List GoalDict, to_dict_list (from_dict_list ds) = ds)
    ∧ (∀ g : Goal, (Goal.from_dict g.to_dict).to_dict = g.to_dict)
    ∧ (∀ f : List Goal, to_dict_list (from_dict_list (to_dict_list f)) = to_dict_list f)
    ∧ (∀ g : Goal, (Goal.from_dict g.to_dict).WF = true)
    ∧ (∀ g : Goal, (Goal.from_dict g.to_dict).effectiveDone = g.effectiveDone) := by
  refine ⟨to_dict_from_dict, to_dict_list_from_dict_list,
    fun g => to_dict_from_dict _, fun f => to_dict_list_from_dict_list _,
    fun g => from_dict_WF _, fun g => ?_⟩
  rw [effectiveDone_eq_effD, to_dict_from_dict, ← effectiveDone_eq_effD]

/-- C8 (code bug): when the specifier given to `--complete` (or
`--incomplete`) does not resolve, `main` does `to_mark.auto` on `None` and
the run dies with an uncaught `AttributeError` — nothing is printed for the
failure, the remaining requested operations never run, and the file is never
written — instead of the specified report-and-continue behaviour. -/
theorem claim_C8 :
    (∀ (f : List Goal) (spec : String),
        find_from_specifier f spec = .ok none → completeFlow f spec = none)
    ∧ completeFlow [] "x" = none := by
  constructor
  · intro f spec h
    simp only [completeFlow, h]
  · rfl

/-- Witness for C8: a not-found specifier on a one-goal document crashes the
run. -/
theorem claim_C8_witness :
    completeFlow [Goal.mk "a" (.explicit false) false []] "nope" = none :=
  claim_C8.1 [Goal.mk "a" (.explicit false) false []] "nope" rfl

/-- C9 (code bug): `--list` calls `goal.pretty_str(idx=idx)` but `pretty_str`
has no parameter named `idx`, so the loop raises `TypeError` on its first
iteration: for every non-empty document nothing is pretty-printed and the run
dies (only the degenerate empty document "prints all zero goals").  The
printing format itself — indentation, `" (X)"` on done nodes, `" (auto)"` on
Auto nodes — is as specified. -/
theorem claim_C9 :
    (∀ (g : Goal) (rest : List Goal), listFlow (g :: rest) = none)
    ∧ listFlow [] = some []
    ∧ Goal.pretty_str (Goal.mk "a" .auto true [Goal.mk "b" (.explicit true) false []])
        0 4 = "a (X) (auto)\n    b (X)\n" :=
  ⟨fun _ _ => rfl, rfl, rfl⟩

/-- C10: `create` is not atomic on error — creating `"a.b.2"` on an empty
root list raises only after goal `a` (forced to Auto) with child `b` was
appended, and the `--new` driver, after catching the `ValueError`, still
serializes the mutated tree, so the partial creations persist in the written
document. -/
theorem claim_C10 :
    newFlow [] "a.b.2" =
      ([GoalDict.mk "a" .auto [GoalDict.mk "b" (.explicit false) []]],
       some "Last element in specifier cannot be an index: a.b.2")
    ∧ (newFlow [] "a.b.2").1 ≠ to_dict_list [] :=
  ⟨rfl, fun h => List.noConfusion h⟩

end GoalTracker
